import Mathlib

/-!
Verification of the sn_dbc amount algebra and builders.

This file contains a shallow embedding of `src/amount.rs` and
`src/builder.rs` (Rust) into Lean, followed by theorems about the
embedded definitions.  Machine integers are modelled as `Nat` / `Int`
(the Rust code keeps `count : u32` at or below one billion and
`unit : i8` within `±(i8::MAX - 9)`, so no wrap-around occurs on the
paths the theorems quantify over; the `u32::try_from` conversions are
modelled with their explicit range checks).  The arbitrary-precision
`rug::Integer` is modelled as `Int` and `rug::Rational` as `ℚ`.
-/


namespace SnDbc

/-- Error kinds of the crate (from the spec's error taxonomy; the crate's
`error.rs` is not part of the provided sources, but the variants used by
`amount.rs` and `builder.rs` are named there verbatim). -/
inductive Error where
  | AmountIncompatible
  | AmountUnderflow
  | AmountMismatch
  | NoReissueShares
  | NoReissueTransaction
  | ReissueShareDbcTransactionMismatch
  | ReissueShareMintNodeSignaturesLenMismatch
  | ReissueShareMintNodeSignatureNotFoundForInput
  | ReissueSharePublicKeySetMismatch
  deriving DecidableEq, Repr

/-- Rust `Amount { count: AmountCounter, unit: PowerOfTen }` with
`AmountCounter = u32` and `PowerOfTen = i8`; the value denoted is
`count * 10 ^ unit`. -/
structure Amount where
  count : Nat
  unit : Int
  deriving DecidableEq, Repr

/-- Rust `Amount::counter_max()`: one billion. -/
def counterMax : Nat := 1000000000

/-- Rust `Amount::unit_max()`: `i8::MAX - 9 = 118`. -/
def unitMax : Int := 118

/-- Rust `Amount::unit_min()`: `-(i8::MAX - 9) = -118`. -/
def unitMin : Int := -unitMax

/-- Largest value of Rust's `u32`; `u32::try_from(i)` succeeds iff
`0 ≤ i ≤ u32Max`. -/
def u32Max : Int := 4294967295

/-- The Amount invariants stated in the spec: `0 ≤ count ≤ counter_max`
(the lower bound is implicit in `Nat`) and `unit_min ≤ unit ≤ unit_max`. -/
def Inv (a : Amount) : Prop :=
  a.count ≤ counterMax ∧ unitMin ≤ a.unit ∧ a.unit ≤ unitMax

instance (a : Amount) : Decidable (Inv a) := by unfold Inv; infer_instance

/-- Rust `Amount::to_rational()`: `Rational::from(10).pow(unit) * Rational::from(count)`. -/
def toRational (a : Amount) : ℚ := (10 : ℚ) ^ a.unit * (a.count : ℚ)

/-- Rust `rug`'s `div_ceil` on `Integer`: division rounding toward `+∞`. -/
def divCeilInt (a b : Int) : Int := -((-a).ediv b)

/-- Body of the `while` loop of Rust `Amount::to_highest_unit`:
`while count % 10 == 0 && unit < Self::unit_max() { unit += 1; count = count.div_ceil(10); }`.
The conjunct `unit < unit_max` is represented exactly by the fuel: the
loop is entered with `fuel = (unit_max - unit).toNat`, so `fuel > 0` iff
`unit < unit_max`, and each pass increments `unit` and decrements the
fuel in lockstep.  (`count.div_ceil(10)` is `(count + 9) / 10` on `u32`;
under the guard `count % 10 == 0` it is exact division.) -/
def thuAux : Nat → Nat → Int → Nat × Int
  | 0, c, u => (c, u)
  | fuel + 1, c, u =>
    if c % 10 = 0 then thuAux fuel ((c + 9) / 10) (u + 1) else (c, u)

/-- Rust `Amount::to_highest_unit`. -/
def Amount.to_highest_unit (a : Amount) : Amount :=
  let r := thuAux (unitMax - a.unit).toNat a.count a.unit
  ⟨r.1, r.2⟩

/-- Rust `NormalizedAmount`: like `Amount` but with a `rug::Integer` count. -/
structure NormalizedAmount where
  count : Int
  unit : Int
  deriving DecidableEq, Repr

/-- Rust `Amount::to_normalized`. -/
def Amount.toNormalized (a : Amount) : NormalizedAmount := ⟨(a.count : Int), a.unit⟩

/-- Rust `Amount::normalize`: reduce both operands to highest unit, then
bring them to the common lower unit, scaling the higher one's count by
`10 ^ unit_distance` (the `[a, b].iter().rev().map(..)` then two `pop`s
return the pair in `(a, b)` order). -/
def Amount.normalize (a0 b0 : Amount) : NormalizedAmount × NormalizedAmount :=
  let a := a0.to_highest_unit
  let b := b0.to_highest_unit
  if a.unit = b.unit then (a.toNormalized, b.toNormalized)
  else if b.count = 0 then (a.toNormalized, ⟨0, a.unit⟩)
  else if a.count = 0 then (⟨0, b.unit⟩, b.toNormalized)
  else
    let unit_distance : Nat :=
      if a.unit < b.unit then (b.unit - a.unit).toNat else (a.unit - b.unit).toNat
    let unit_base : Int := min a.unit b.unit
    let na : NormalizedAmount :=
      if a.unit = unit_base then ⟨(a.count : Int), unit_base⟩
      else ⟨(10 : Int) ^ unit_distance * (a.count : Int), unit_base⟩
    let nb : NormalizedAmount :=
      if b.unit = unit_base then ⟨(b.count : Int), unit_base⟩
      else ⟨(10 : Int) ^ unit_distance * (b.count : Int), unit_base⟩
    (na, nb)

/-- Body of the `while` loop of Rust `Amount::checked_add`:
`while count_sum > counter_max || count_sum % 10 == 0 { unit += 1; count_sum = count_sum.div_ceil(10); }`.
The loop is only entered with `count_sum > 0` and positivity is
preserved, so each pass strictly decreases `count_sum`; the fuel is
initialized to `count_sum.toNat`, which therefore always exceeds the
number of passes the Rust loop makes, and the fuel-exhaustion arm is
never taken. -/
def addLoop : Nat → Int → Int → Int × Int
  | 0, c, u => (c, u)
  | fuel + 1, c, u =>
    if (counterMax : Int) < c ∨ c % 10 = 0 then
      addLoop fuel (divCeilInt c 10) (u + 1)
    else (c, u)

/-- Rust `Amount::checked_add`.  The final `match AmountCounter::try_from(count_sum)`
is `Ok(v) if v <= counter_max => Ok(..)` and otherwise
`Err(Error::AmountIncompatible)`; `u32::try_from` succeeds exactly on
`0 ≤ count_sum ≤ u32::MAX`. -/
def Amount.checked_add (a b : Amount) : Except Error Amount :=
  let p := Amount.normalize a b
  let s : Int := p.1.count + p.2.count
  let r : Int × Int := if 0 < s then addLoop s.toNat s p.1.unit else (s, p.1.unit)
  if 0 ≤ r.1 ∧ r.1 ≤ u32Max ∧ r.1 ≤ (counterMax : Int) then .ok ⟨r.1.toNat, r.2⟩
  else .error .AmountIncompatible

/-- Body of the digit-extraction recursion of Rust `digits` (`x_inner`),
which produces the base-10 digits most-significant first.  The fuel is
initialized to `n`, which always exceeds the recursion depth
(`n / 10 ≤ fuel - 1` is preserved), so the fuel-exhaustion arm is never
taken. -/
def digitsAux : Nat → Nat → List Nat
  | 0, n => [n]
  | fuel + 1, n => if 10 ≤ n then digitsAux fuel (n / 10) ++ [n % 10] else [n]

/-- Rust `digits`: for `234523` returns `[2,3,4,5,2,3]`. -/
def rustDigits (n : Nat) : List Nat := digitsAux n n

/-- The tail of Rust `Ord for Amount::cmp` in the equal-total-digits
case: the `zip` loop comparing digit pairs, followed by the two checks
that a longer digit list is greater/lesser only if its unmatched tail
contains a nonzero digit. -/
def lexTail : List Nat → List Nat → Ordering
  | x :: xs, y :: ys =>
    if y < x then .gt else if x < y then .lt else lexTail xs ys
  | [], ys => if ys.any (fun d => 0 < d) then .lt else .eq
  | xs, [] => if xs.any (fun d => 0 < d) then .gt else .eq

/-- Rust `Ord for Amount::cmp` (the `use_rational_impl = false` branch,
which is the code actually run). -/
def amountCmp (a b : Amount) : Ordering :=
  if a.count = 0 ∧ b.count ≠ 0 then .lt
  else if a.count = 0 ∧ b.count = 0 then .eq
  else if b.count = 0 then .gt
  else if a.unit = b.unit then compare a.count b.count
  else
    let a_digits := rustDigits a.count
    let b_digits := rustDigits b.count
    let a_num_digits : Int := a.unit + a_digits.length
    let b_num_digits : Int := b.unit + b_digits.length
    if a_num_digits = b_num_digits then lexTail a_digits b_digits
    else compare a_num_digits b_num_digits

/-- Rust `Amount::checked_sub`: underflow check via the `Ord` instance
(`self < rhs`), then normalize, subtract the big-integer counts, and
convert back through `u32::try_from` with the `counter_max` guard. -/
def Amount.checked_sub (a rhs : Amount) : Except Error Amount :=
  if amountCmp a rhs = .lt then .error .AmountUnderflow
  else
    let p := Amount.normalize a rhs
    let cd : Int := p.1.count - p.2.count
    if 0 ≤ cd ∧ cd ≤ u32Max ∧ cd ≤ (counterMax : Int) then .ok ⟨cd.toNat, p.1.unit⟩
    else .error .AmountIncompatible

/-- Rust `fmt::Display for Amount`: the string `count*10^unit` (this is
also `to_string()`). -/
def Amount.displayString (a : Amount) : String :=
  toString a.count ++ "*10^" ++ toString a.unit

/-- The `BTreeMap` of SI names used by `to_si_string`, as a lookup
function. -/
def siName (u : Int) : Option String :=
  if u = 24 then some "yotta"
  else if u = 21 then some "zetta"
  else if u = 18 then some "exa"
  else if u = 15 then some "peta"
  else if u = 12 then some "tera"
  else if u = 9 then some "giga"
  else if u = 6 then some "mega"
  else if u = 3 then some "kilo"
  else if u = 2 then some "hecto"
  else if u = 1 then some "deka"
  else if u = 0 then some ""
  else if u = -1 then some "deci"
  else if u = -2 then some "centi"
  else if u = -3 then some "milli"
  else if u = -6 then some "micro"
  else if u = -9 then some "nano"
  else if u = -12 then some "pico"
  else if u = -15 then some "femto"
  else if u = -18 then some "atto"
  else if u = -21 then some "zepto"
  else if u = -24 then some "yocto"
  else none

/-- The `loop` of Rust `Amount::to_si_string`: starting from
`unit = self.unit`, step by `-1` when `self.unit ≥ 0` and by `+1`
otherwise until an SI name is found, then emit
`format!("{} {}", count * 10^(self.unit.abs() - unit.abs()), name)`.
Inside the range `-24 ≤ self.unit ≤ 24` the walk always reaches a named
unit within `|self.unit| + 1` lookups (`0` is named), so the
fuel-exhaustion arm is never taken. -/
def siLoopAux (selfUnit : Int) (count : Nat) : Nat → Int → String
  | 0, _ => toString count ++ "*10^" ++ toString selfUnit
  | fuel + 1, u =>
    match siName u with
    | some nm =>
      let diff : Nat := selfUnit.natAbs - u.natAbs
      toString (count * 10 ^ diff) ++ " " ++ nm
    | none => siLoopAux selfUnit count fuel (u + (if 0 ≤ selfUnit then -1 else 1))

/-- Rust `Amount::to_si_string`: the SI loop when `-24 ≤ unit ≤ 24`,
otherwise the fallback `self.to_string()`. -/
def Amount.to_si_string (a : Amount) : String :=
  if -24 ≤ a.unit ∧ a.unit ≤ 24 then siLoopAux a.unit a.count (a.unit.natAbs + 1) a.unit
  else a.displayString

/-- Value of a most-significant-digit-first list. -/
def valMSB (l : List Nat) : Nat := l.foldl (fun acc d => 10 * acc + d) 0

/-- SI keys of the `to_si_string` table, used to state the amended C7. -/
def siKeys : List Int :=
  [24, 21, 18, 15, 12, 9, 6, 3, 2, 1, 0, -1, -2, -3, -6, -9, -12, -15, -18, -21, -24]

/-- Greatest SI key at or below `u` (the spec's "nearest SI-prefixed
unit ≤ unit", realized by the code's downward walk when `unit ≥ 0`). -/
def greatestKeyLe (u : Int) : Int := ((siKeys.filter fun k => k ≤ u).maximum?).getD 0

/-- Least SI key at or above `u` (what the code's upward walk selects
when `unit < 0`). -/
def leastKeyGe (u : Int) : Int := ((siKeys.filter fun k => u ≤ k).minimum?).getD 0

/-- The amended description of `to_si_string`: at or below for
nonnegative units, at or above (toward zero) for negative units, with
the count rescaled by the absolute distance; fallback outside
`[-24, 24]`. -/
def siAmended (a : Amount) : String :=
  if -24 ≤ a.unit ∧ a.unit ≤ 24 then
    if 0 ≤ a.unit then
      toString (a.count * 10 ^ (a.unit - greatestKeyLe a.unit).toNat) ++ " "
        ++ (siName (greatestKeyLe a.unit)).getD ""
    else
      toString (a.count * 10 ^ (leastKeyGe a.unit - a.unit).toNat) ++ " "
        ++ (siName (leastKeyGe a.unit)).getD ""
  else a.displayString

/-! Embedding of `src/builder.rs`.  The collaborator types (blsttc keys
and signatures, blsbs envelopes, the crate's `Dbc`, `DbcContent`,
`Denomination`, `Hash`) are not part of the provided sources; they are
modelled from the spec as abstract type parameters, and the collaborator
operations as a record of abstract functions (`MintOps`). -/

/-- Modelled from the spec: `DbcContent` = owner public key +
denomination (the slip-derivation material plays no role in the builder
control flow and is elided; the slip is produced by an abstract
function of the content). -/
structure DbcContent (Owner Denom : Type) where
  owner : Owner
  denomination : Denom
  deriving DecidableEq

/-- Modelled from the spec: `DbcEnvelope` = blinded envelope +
denomination. -/
structure DbcEnvelope (Env Denom : Type) where
  envelope : Env
  denomination : Denom
  deriving DecidableEq

/-- Modelled from the spec: `Dbc` = content + the mint's
denomination-derived public key + the mint's aggregated signature. -/
structure Dbc (Owner Denom PK Sig : Type) where
  content : DbcContent Owner Denom
  mint_public_key : PK
  mint_signature : Sig
  deriving DecidableEq

/-- Modelled from the spec: one mint node's signature share over an
envelope.  The pair `share` is what Rust's
`signature_share_for_envelope_with_index()` extracts: the node's key
index (`Fr`) and its `SignatureShare`. -/
structure SignedEnvelopeShare (Env Fr SigShare : Type) where
  envelope : Env
  share : Fr × SigShare
  deriving DecidableEq

/-- Rust `ReissueTransaction`: input Dbcs and output envelopes (the
`HashSet`s are modelled as lists). -/
structure ReissueTransaction (Owner Denom PK Sig Env : Type) where
  inputs : List (Dbc Owner Denom PK Sig)
  outputs : List (DbcEnvelope Env Denom)

/-- Modelled from the spec: a mint node's `ReissueShare`. -/
structure ReissueShare (Env Fr SigShare PKSet DbcTx : Type) where
  dbc_transaction : DbcTx
  signed_envelope_shares : List (SignedEnvelopeShare Env Fr SigShare)
  public_key_set : PKSet

/-- Modelled from the spec: the collaborator operations consumed by the
builders — threshold-key derivation and combination (blsttc), blinding
(blsbs), denomination-to-amount and big-endian byte encoding, the
blinded projection of a transaction, and content hashing (`Dbc::name`).
`combineSignatures` may fail; the `?` operator converts its failure
into a crate `Error`, whose kind is opaque here. -/
structure MintOps (Owner Denom Env PKSet PK Sig SigShare Fr Name DbcTx : Type) where
  amountOf : Denom → Amount
  toBeBytes : Amount → List Nat
  deriveChild : PKSet → List Nat → PKSet
  publicKey : PKSet → PK
  combineSignatures : PKSet → List (Fr × SigShare) → Except Error Sig
  blinded : ReissueTransaction Owner Denom PK Sig Env → DbcTx
  contentName : DbcContent Owner Denom → Name
  placeSlipInEnvelope : DbcContent Owner Denom → Env

/-- Rust `Output`: unblinded data for one requested output. -/
structure Output (Owner Denom : Type) where
  denomination : Denom
  owner : Owner

/-- Rust `TransactionBuilder` (the `HashSet` of inputs modelled as a
list). -/
structure TransactionBuilder (Owner Denom PK Sig Env : Type) where
  inputs : List (Dbc Owner Denom PK Sig)
  outputs : List (Output Owner Denom)

/-- Rust `TransactionBuilder::build`: make a `DbcContent` per requested
output, collect into a set (modelled by `dedup`), place each content's
slip in a fresh envelope (the fresh `SlipPreparer` randomness is
abstracted into `placeSlipInEnvelope`), and return the transaction plus
the envelope-to-content map.  There is no error path. -/
def TransactionBuilder.build {Owner Denom PK Sig Env : Type}
    [DecidableEq Owner] [DecidableEq Denom]
    (ops : MintOps Owner Denom Env PKSet PK Sig SigShare Fr Name DbcTx)
    (tb : TransactionBuilder Owner Denom PK Sig Env) :
    Except Error (ReissueTransaction Owner Denom PK Sig Env
      × List (DbcEnvelope Env Denom × DbcContent Owner Denom)) :=
  let outputs_content := (tb.outputs.map fun o => DbcContent.mk o.owner o.denomination).dedup
  let map := outputs_content.map fun c =>
    (DbcEnvelope.mk (ops.placeSlipInEnvelope c) c.denomination, c)
  let outputs := map.map Prod.fst
  .ok (⟨tb.inputs, outputs⟩, map)

/-- A concrete instantiation of the collaborator operations over `Nat`,
used for concrete evaluations. -/
def natOps : MintOps Nat Nat Nat Nat Nat Nat Nat Nat Nat Nat where
  amountOf := fun d => ⟨d, 0⟩
  toBeBytes := fun a => [a.count]
  deriveChild := fun p bs => p + bs.sum
  publicKey := fun p => p
  combineSignatures := fun _ shares => .ok (shares.map Prod.snd).sum
  blinded := fun _ => 0
  contentName := fun c => c.owner
  placeSlipInEnvelope := fun c => c.owner

/-- Rust `DbcBuilder` (the `HashMap` of output contents modelled as an
association list). -/
structure DbcBuilder (Owner Denom Env PKSet PK Sig SigShare Fr DbcTx : Type) where
  reissue_transaction : Option (ReissueTransaction Owner Denom PK Sig Env)
  reissue_shares : List (ReissueShare Env Fr SigShare PKSet DbcTx)
  outputs_content : List (DbcEnvelope Env Denom × DbcContent Owner Denom)

/-- The per-share validations of the `for rs in self.reissue_shares`
loop of Rust `DbcBuilder::build`: the blinded transaction must match,
the number of signed envelope shares must equal the number of outputs,
and every output envelope must be covered by some share of this node. -/
def validateShares {Owner Denom Env PKSet PK Sig SigShare Fr Name DbcTx : Type}
    [DecidableEq Env] [DecidableEq DbcTx]
    (ops : MintOps Owner Denom Env PKSet PK Sig SigShare Fr Name DbcTx)
    (rt : ReissueTransaction Owner Denom PK Sig Env) :
    List (ReissueShare Env Fr SigShare PKSet DbcTx) → Except Error Unit
  | [] => .ok ()
  | rs :: rest =>
    if ¬(ops.blinded rt = rs.dbc_transaction) then
      .error .ReissueShareDbcTransactionMismatch
    else if ¬(rs.signed_envelope_shares.length = rt.outputs.length) then
      .error .ReissueShareMintNodeSignaturesLenMismatch
    else if ¬(rt.outputs.all fun de =>
        rs.signed_envelope_shares.any fun ses => ses.envelope = de.envelope) then
      .error .ReissueShareMintNodeSignatureNotFoundForInput
    else validateShares ops rt rest

/-- The `signed_envelope_shares` map of Rust `DbcBuilder::build`,
keyed by envelope: pushing each share into its envelope's list over the
share iteration order yields, per key, exactly the in-order filter of
all accumulated shares; `get` returns `None` exactly when this list is
empty. -/
def sharesForEnvelope {Env Fr SigShare PKSet DbcTx : Type} [DecidableEq Env]
    (shares : List (ReissueShare Env Fr SigShare PKSet DbcTx)) (e : Env) :
    List (SignedEnvelopeShare Env Fr SigShare) :=
  ((shares.map fun rs => rs.signed_envelope_shares).join).filter fun ses => ses.envelope = e

/-- The final `for (dbc_envelope, content) in self.outputs_content`
loop of Rust `DbcBuilder::build`.  The `.get(&dbc_envelope.envelope).unwrap()`
panics when no accumulated share covers the envelope: the panic is
modelled as `none`.  A failing `combine_signatures` propagates through
`?` as `some (.error e)`. -/
def buildOutputDbcs {Owner Denom Env PKSet PK Sig SigShare Fr Name DbcTx : Type}
    [DecidableEq Env]
    (ops : MintOps Owner Denom Env PKSet PK Sig SigShare Fr Name DbcTx)
    (mintPks : PKSet) (shares : List (ReissueShare Env Fr SigShare PKSet DbcTx)) :
    List (DbcEnvelope Env Denom × DbcContent Owner Denom)
      → Option (Except Error (List (Dbc Owner Denom PK Sig)))
  | [] => some (.ok [])
  | (de, content) :: rest =>
    match sharesForEnvelope shares de.envelope with
    | [] => none
    | s :: ss =>
      let mint_sig_shares_ref := (s :: ss).map fun ses => ses.share
      let denom_idx := ops.toBeBytes (ops.amountOf de.denomination)
      let mint_derived_pks := ops.deriveChild mintPks denom_idx
      match ops.combineSignatures mint_derived_pks mint_sig_shares_ref with
      | .error e => some (.error e)
      | .ok mint_sig =>
        match buildOutputDbcs ops mintPks shares rest with
        | none => none
        | some (.error e) => some (.error e)
        | some (.ok dbcs) =>
          some (.ok (Dbc.mk content (ops.publicKey mint_derived_pks) mint_sig :: dbcs))

/-- Rust `DbcBuilder::build`: the share-emptiness and
transaction-presence checks, the per-share validations, the
`PublicKeySet` uniqueness check (the `HashSet` of key sets modelled by
`dedup`), the final output loop, and the sort of the output Dbcs by
name (`sort_by_key` modelled by insertion sort, which is also stable).
The outer `Option` is `none` exactly when the Rust code panics on the
`unwrap`. -/
def DbcBuilder.build {Owner Denom Env PKSet PK Sig SigShare Fr Name DbcTx : Type}
    [DecidableEq Env] [DecidableEq PKSet] [DecidableEq DbcTx] [LinearOrder Name]
    (ops : MintOps Owner Denom Env PKSet PK Sig SigShare Fr Name DbcTx)
    (b : DbcBuilder Owner Denom Env PKSet PK Sig SigShare Fr DbcTx) :
    Option (Except Error (List (Dbc Owner Denom PK Sig))) :=
  if b.reissue_shares.isEmpty then some (.error .NoReissueShares)
  else
    match b.reissue_transaction with
    | none => some (.error .NoReissueTransaction)
    | some rt =>
      match validateShares ops rt b.reissue_shares with
      | .error e => some (.error e)
      | .ok _ =>
        match (b.reissue_shares.map fun rs => rs.public_key_set).dedup with
        | [mint_public_key_set] =>
          match buildOutputDbcs ops mint_public_key_set b.reissue_shares b.outputs_content with
          | none => none
          | some (.error e) => some (.error e)
          | some (.ok output_dbcs) =>
            some (.ok (List.insertionSort
              (fun x y => ops.contentName x.content ≤ ops.contentName y.content) output_dbcs))
        | _ => some (.error .ReissueSharePublicKeySetMismatch)

/-- A concrete `DbcBuilder` input on which every validation passes and
building succeeds. -/
def goodBuilder : DbcBuilder Nat Nat Nat Nat Nat Nat Nat Nat Nat :=
  ⟨some ⟨[], [⟨1, 7⟩]⟩, [⟨0, [⟨1, (0, 0)⟩], 5⟩], [(⟨1, 7⟩, ⟨3, 7⟩)]⟩

/-- The single Dbc produced by building `goodBuilder`. -/
def goodDbc : Dbc Nat Nat Nat Nat := ⟨⟨3, 7⟩, 12, 0⟩

theorem digitsAux_congr : ∀ n f g : Nat, n ≤ f → n ≤ g → digitsAux f n = digitsAux g n := by
  intro n
  induction n using Nat.strong_induction_on with
  | _ n ih =>
    intro f g hf hg
    match f, g with
    | 0, 0 => rfl
    | 0, g + 1 =>
      have hn : n = 0 := Nat.le_zero.mp hf
      subst hn; simp [digitsAux]
    | f + 1, 0 =>
      have hn : n = 0 := Nat.le_zero.mp hg
      subst hn; simp [digitsAux]
    | f + 1, g + 1 =>
      simp only [digitsAux]
      by_cases h : 10 ≤ n
      · have hd : n / 10 < n := Nat.div_lt_self (by omega) (by omega)
        rw [if_pos h, if_pos h, ih (n / 10) hd f g (by omega) (by omega)]
      · rw [if_neg h, if_neg h]

/-- The Rust recursion, recovered as an unfolding law of `rustDigits`. -/
theorem rustDigits_def (n : Nat) :
    rustDigits n = if 10 ≤ n then rustDigits (n / 10) ++ [n % 10] else [n] := by
  unfold rustDigits
  match n with
  | 0 => simp [digitsAux]
  | m + 1 =>
    simp only [digitsAux]
    by_cases h : 10 ≤ m + 1
    · have hd : (m + 1) / 10 < m + 1 := Nat.div_lt_self (by omega) (by omega)
      rw [if_pos h, if_pos h, digitsAux_congr ((m + 1) / 10) m ((m + 1) / 10) (by omega) le_rfl]
    · rw [if_neg h, if_neg h]

theorem rustDigits_ne_nil (n : Nat) : rustDigits n ≠ [] := by
  rw [rustDigits_def]
  by_cases h : 10 ≤ n
  · rw [if_pos h]; simp
  · rw [if_neg h]; simp

theorem rustDigits_length_pos (n : Nat) : 0 < (rustDigits n).length :=
  List.length_pos.mpr (rustDigits_ne_nil n)

theorem rustDigits_lt_ten (n : Nat) : ∀ d ∈ rustDigits n, d < 10 := by
  induction n using Nat.strong_induction_on with
  | _ n ih =>
    rw [rustDigits_def]
    by_cases h : 10 ≤ n
    · rw [if_pos h]
      intro d hd
      rcases List.mem_append.mp hd with h1 | h2
      · exact ih (n / 10) (Nat.div_lt_self (by omega) (by omega)) d h1
      · simp at h2; omega
    · rw [if_neg h]
      intro d hd; simp at hd; omega

theorem valMSB_nil : valMSB [] = 0 := rfl

theorem foldl_digits_acc (t : List Nat) : ∀ a : Nat,
    t.foldl (fun acc d => 10 * acc + d) a
      = a * 10 ^ t.length + t.foldl (fun acc d => 10 * acc + d) 0 := by
  induction t with
  | nil => intro a; simp
  | cons d t iht =>
    intro a
    simp only [List.foldl_cons, List.length_cons]
    rw [iht (10 * a + d), iht (10 * 0 + d)]
    ring

theorem valMSB_cons (d : Nat) (t : List Nat) :
    valMSB (d :: t) = d * 10 ^ t.length + valMSB t := by
  simp only [valMSB, List.foldl_cons]
  rw [foldl_digits_acc t (10 * 0 + d)]
  ring

theorem valMSB_append_single (l : List Nat) (d : Nat) :
    valMSB (l ++ [d]) = 10 * valMSB l + d := by
  unfold valMSB
  rw [List.foldl_append]
  simp

theorem valMSB_lt (l : List Nat) (h : ∀ d ∈ l, d < 10) : valMSB l < 10 ^ l.length := by
  induction l with
  | nil => simp [valMSB]
  | cons d t iht =>
    rw [valMSB_cons]
    have hd : d < 10 := h d (by simp)
    have ht : valMSB t < 10 ^ t.length := iht (fun x hx => h x (by simp [hx]))
    have : d * 10 ^ t.length + valMSB t < (d + 1) * 10 ^ t.length := by nlinarith
    calc d * 10 ^ t.length + valMSB t < (d + 1) * 10 ^ t.length := this
    _ ≤ 10 * 10 ^ t.length := by nlinarith [Nat.pos_pow_of_pos t.length (by omega : 0 < 10)]
    _ = 10 ^ (d :: t).length := by rw [List.length_cons]; ring

theorem valMSB_eq_zero_iff (l : List Nat) : valMSB l = 0 ↔ ∀ d ∈ l, d = 0 := by
  induction l with
  | nil => simp [valMSB]
  | cons d t iht =>
    rw [valMSB_cons]
    have hp : 0 < 10 ^ t.length := Nat.pos_pow_of_pos _ (by omega)
    constructor
    · intro h
      have hd : d = 0 := by nlinarith
      have ht : valMSB t = 0 := by omega
      intro x hx
      rcases List.mem_cons.mp hx with rfl | hx
      · exact hd
      · exact (iht.mp ht) x hx
    · intro h
      rw [h d (by simp), iht.mpr (fun x hx => h x (by simp [hx]))]
      simp

theorem valMSB_rustDigits (n : Nat) : valMSB (rustDigits n) = n := by
  induction n using Nat.strong_induction_on with
  | _ n ih =>
    rw [rustDigits_def]
    by_cases h : 10 ≤ n
    · rw [if_pos h, valMSB_append_single,
        ih (n / 10) (Nat.div_lt_self (by omega) (by omega))]
      omega
    · rw [if_neg h]
      simp [valMSB]

theorem lt_ten_pow_length (n : Nat) : n < 10 ^ (rustDigits n).length := by
  have := valMSB_lt (rustDigits n) (rustDigits_lt_ten n)
  rwa [valMSB_rustDigits] at this

theorem ten_pow_length_pred_le (n : Nat) (hn : n ≠ 0) :
    10 ^ ((rustDigits n).length - 1) ≤ n := by
  induction n using Nat.strong_induction_on with
  | _ n ih =>
    rw [rustDigits_def]
    by_cases h : 10 ≤ n
    · rw [if_pos h]
      have hd : n / 10 < n := Nat.div_lt_self (by omega) (by omega)
      have hd0 : n / 10 ≠ 0 := by
        intro h0
        have := Nat.div_mul_le_self n 10
        omega
      have hrec := ih (n / 10) hd hd0
      have hlen : (rustDigits (n / 10) ++ [n % 10]).length = (rustDigits (n / 10)).length + 1 := by
        simp
      rw [hlen]
      have hlp : 0 < (rustDigits (n / 10)).length := rustDigits_length_pos _
      have : 10 ^ ((rustDigits (n / 10)).length + 1 - 1) = 10 * 10 ^ ((rustDigits (n / 10)).length - 1) := by
        rw [Nat.add_sub_cancel]
        conv_lhs => rw [show (rustDigits (n / 10)).length = ((rustDigits (n / 10)).length - 1) + 1 by omega]
        ring
      rw [this]
      have h10 : 10 * (n / 10) ≤ n := by omega
      calc 10 * 10 ^ ((rustDigits (n / 10)).length - 1) ≤ 10 * (n / 10) := by
            exact Nat.mul_le_mul_left 10 hrec
      _ ≤ n := by omega
    · rw [if_neg h]
      simp only [List.length_singleton]
      simpa using Nat.one_le_iff_ne_zero.mpr hn

theorem rustDigits_length_mul_pow (c : Nat) (hc : c ≠ 0) (p : Nat) :
    (rustDigits (c * 10 ^ p)).length = (rustDigits c).length + p := by
  induction p with
  | zero => simp
  | succ q ihq =>
    have hge : 10 ≤ c * 10 ^ (q + 1) := by
      have h1 : 1 ≤ c := Nat.one_le_iff_ne_zero.mpr hc
      have h2 : 10 ≤ 10 ^ (q + 1) := by
        calc 10 = 10 ^ 1 := by ring
        _ ≤ 10 ^ (q + 1) := Nat.pow_le_pow_right (by omega) (by omega)
      calc 10 ≤ 10 ^ (q + 1) := h2
      _ ≤ c * 10 ^ (q + 1) := by nlinarith
    rw [rustDigits_def, if_pos hge]
    have hdiv : c * 10 ^ (q + 1) / 10 = c * 10 ^ q := by
      rw [pow_succ, ← Nat.mul_assoc]
      exact Nat.mul_div_cancel _ (by omega)
    rw [hdiv]
    simp [ihq]
    omega

/-- Comparing digit-length-equal scaled values digit by digit:
`lexTail` on the digit lists agrees with comparison of the padded
values. -/
theorem lexTail_correct : ∀ (xs ys : List Nat) (p q : Nat),
    (∀ d ∈ xs, d < 10) → (∀ d ∈ ys, d < 10) →
    xs.length + p = ys.length + q →
    lexTail xs ys = compare (valMSB xs * 10 ^ p) (valMSB ys * 10 ^ q) := by
  have hany_pos : ∀ l : List Nat, l.any (fun d => 0 < d) = true → 0 < valMSB l := by
    intro l hl
    rcases List.any_eq_true.mp hl with ⟨d, hd, hpos⟩
    simp only [decide_eq_true_eq] at hpos
    by_contra hz
    have h0 : valMSB l = 0 := by omega
    have := (valMSB_eq_zero_iff l).mp h0 d hd
    omega
  have hany_zero : ∀ l : List Nat, ¬(l.any (fun d => 0 < d) = true) → valMSB l = 0 := by
    intro l hl
    rw [valMSB_eq_zero_iff]
    intro d hd
    by_contra hne
    exact hl (List.any_eq_true.mpr ⟨d, hd, by simp [Nat.pos_of_ne_zero hne]⟩)
  intro xs
  induction xs with
  | nil =>
    intro ys p q _ _ _
    simp only [lexTail, valMSB_nil, Nat.zero_mul]
    by_cases h : ys.any (fun d => 0 < d)
    · rw [if_pos h]
      have hpos : 0 < valMSB ys * 10 ^ q :=
        Nat.mul_pos (hany_pos ys h) (Nat.pos_pow_of_pos q (by omega))
      exact (compare_lt_iff_lt.mpr hpos).symm
    · rw [if_neg h, hany_zero ys h, Nat.zero_mul]
      exact (compare_eq_iff_eq.mpr rfl).symm
  | cons x xt ihx =>
    intro ys p q hxs hys hlen
    match ys with
    | [] =>
      simp only [lexTail, valMSB_nil, Nat.zero_mul]
      by_cases h : (x :: xt).any (fun d => 0 < d)
      · rw [if_pos h]
        have hpos : 0 < valMSB (x :: xt) * 10 ^ p :=
          Nat.mul_pos (hany_pos _ h) (Nat.pos_pow_of_pos p (by omega))
        exact (compare_gt_iff_gt.mpr hpos).symm
      · rw [if_neg h, hany_zero _ h, Nat.zero_mul]
        exact (compare_eq_iff_eq.mpr rfl).symm
    | y :: yt =>
      have hxd : x < 10 := hxs x (by simp)
      have hyd : y < 10 := hys y (by simp)
      have hlen' : xt.length + p = yt.length + q := by
        simp only [List.length_cons] at hlen
        omega
      have hX : valMSB (x :: xt) * 10 ^ p = x * 10 ^ (xt.length + p) + valMSB xt * 10 ^ p := by
        rw [valMSB_cons, Nat.add_mul, pow_add]; ring
      have hY : valMSB (y :: yt) * 10 ^ q = y * 10 ^ (yt.length + q) + valMSB yt * 10 ^ q := by
        rw [valMSB_cons, Nat.add_mul, pow_add]; ring
      have hXlt : valMSB xt * 10 ^ p < 10 ^ (xt.length + p) := by
        rw [pow_add]
        exact (Nat.mul_lt_mul_right (Nat.pos_pow_of_pos p (by omega))).mpr
          (valMSB_lt xt (fun d hd => hxs d (by simp [hd])))
      have hYlt : valMSB yt * 10 ^ q < 10 ^ (yt.length + q) := by
        rw [pow_add]
        exact (Nat.mul_lt_mul_right (Nat.pos_pow_of_pos q (by omega))).mpr
          (valMSB_lt yt (fun d hd => hys d (by simp [hd])))
      simp only [lexTail]
      by_cases hgt : y < x
      · rw [if_pos hgt]
        have : valMSB (y :: yt) * 10 ^ q < valMSB (x :: xt) * 10 ^ p := by
          rw [hX, hY, hlen']
          calc y * 10 ^ (yt.length + q) + valMSB yt * 10 ^ q
              < y * 10 ^ (yt.length + q) + 10 ^ (yt.length + q) := by omega
          _ = (y + 1) * 10 ^ (yt.length + q) := by ring
          _ ≤ x * 10 ^ (yt.length + q) := Nat.mul_le_mul_right _ (by omega)
          _ ≤ x * 10 ^ (yt.length + q) + valMSB xt * 10 ^ p := by omega
        exact (compare_gt_iff_gt.mpr this).symm
      · rw [if_neg hgt]
        by_cases hlt : x < y
        · rw [if_pos hlt]
          have : valMSB (x :: xt) * 10 ^ p < valMSB (y :: yt) * 10 ^ q := by
            rw [hX, hY, hlen']
            calc x * 10 ^ (yt.length + q) + valMSB xt * 10 ^ p
                < x * 10 ^ (yt.length + q) + 10 ^ (yt.length + q) := by
                  rw [← hlen']; omega
            _ = (x + 1) * 10 ^ (yt.length + q) := by ring
            _ ≤ y * 10 ^ (yt.length + q) := Nat.mul_le_mul_right _ (by omega)
            _ ≤ y * 10 ^ (yt.length + q) + valMSB yt * 10 ^ q := by omega
          exact (compare_lt_iff_lt.mpr this).symm
        · rw [if_neg hlt]
          have hxy : x = y := by omega
          subst hxy
          rw [ihx yt p q (fun d hd => hxs d (by simp [hd])) (fun d hd => hys d (by simp [hd])) hlen']
          rw [hX, hY, hlen']
          have hcmp : ∀ c m n : Nat, compare m n = compare (c + m) (c + n) := by
            intro c m n
            rcases lt_trichotomy m n with h | h | h
            · rw [compare_lt_iff_lt.mpr h, compare_lt_iff_lt.mpr (by omega : c + m < c + n)]
            · rw [h, compare_eq_iff_eq.mpr rfl, compare_eq_iff_eq.mpr rfl]
            · rw [compare_gt_iff_gt.mpr h, compare_gt_iff_gt.mpr (by omega : c + n < c + m)]
          exact hcmp (x * 10 ^ (yt.length + q)) _ _

theorem pow_mul_shift (c : Nat) (u m : Int) (h : m ≤ u) :
    (10 : ℚ) ^ u * (c : ℚ) = (10 : ℚ) ^ m * ((c * 10 ^ (u - m).toNat : ℕ) : ℚ) := by
  have ht : ((u - m).toNat : ℤ) = u - m := Int.toNat_of_nonneg (by omega)
  push_cast
  rw [← zpow_natCast (10 : ℚ) (u - m).toNat, ht]
  rw [show (10 : ℚ) ^ m * ((c : ℚ) * (10 : ℚ) ^ (u - m))
        = ((10 : ℚ) ^ m * (10 : ℚ) ^ (u - m)) * (c : ℚ) from by ring]
  rw [← zpow_add₀ (by norm_num : (10 : ℚ) ≠ 0) m (u - m)]
  rw [show m + (u - m) = u from by ring]

theorem toRational_compare_bridge (a b : Amount) :
    (toRational a < toRational b ↔
      a.count * 10 ^ (a.unit - min a.unit b.unit).toNat
        < b.count * 10 ^ (b.unit - min a.unit b.unit).toNat) ∧
    (toRational a = toRational b ↔
      a.count * 10 ^ (a.unit - min a.unit b.unit).toNat
        = b.count * 10 ^ (b.unit - min a.unit b.unit).toNat) := by
  have hm1 : min a.unit b.unit ≤ a.unit := min_le_left _ _
  have hm2 : min a.unit b.unit ≤ b.unit := min_le_right _ _
  have e1 : toRational a = (10 : ℚ) ^ (min a.unit b.unit)
      * ((a.count * 10 ^ (a.unit - min a.unit b.unit).toNat : ℕ) : ℚ) := by
    rw [toRational]; exact pow_mul_shift a.count a.unit _ hm1
  have e2 : toRational b = (10 : ℚ) ^ (min a.unit b.unit)
      * ((b.count * 10 ^ (b.unit - min a.unit b.unit).toNat : ℕ) : ℚ) := by
    rw [toRational]; exact pow_mul_shift b.count b.unit _ hm2
  have h10 : (0 : ℚ) < (10 : ℚ) ^ (min a.unit b.unit) := zpow_pos (by norm_num) _
  constructor
  · rw [e1, e2, mul_lt_mul_left h10, Nat.cast_lt]
  · rw [e1, e2]
    exact ⟨fun h => Nat.cast_inj.mp (mul_left_cancel₀ (ne_of_gt h10) h),
      fun h => by rw [h]⟩

theorem digitlen_lt (A B : Nat) (hB : B ≠ 0)
    (h : (rustDigits A).length < (rustDigits B).length) : A < B :=
  calc A < 10 ^ (rustDigits A).length := lt_ten_pow_length A
  _ ≤ 10 ^ ((rustDigits B).length - 1) := Nat.pow_le_pow_right (by omega) (by omega)
  _ ≤ B := ten_pow_length_pred_le B hB

/-- The custom `Ord for Amount` implementation agrees with the order of
rational values, for all Amounts (no invariant needed). -/
theorem amountCmp_correct (a b : Amount) :
    (amountCmp a b = .lt ↔ toRational a < toRational b) ∧
    (amountCmp a b = .eq ↔ toRational a = toRational b) ∧
    (amountCmp a b = .gt ↔ toRational b < toRational a) := by
  have sound : (amountCmp a b = .lt → toRational a < toRational b) ∧
      (amountCmp a b = .eq → toRational a = toRational b) ∧
      (amountCmp a b = .gt → toRational b < toRational a) := by
    have hpos : ∀ x : Amount, x.count ≠ 0 → 0 < toRational x := by
      intro x hx
      rw [toRational]
      exact mul_pos (zpow_pos (by norm_num) _) (by exact_mod_cast Nat.pos_of_ne_zero hx)
    have hzero : ∀ x : Amount, x.count = 0 → toRational x = 0 := by
      intro x hx; rw [toRational, hx]; simp
    simp only [amountCmp]
    split_ifs with h1 h2 h3 h4 h5
    · -- a.count = 0, b.count ≠ 0: Less
      refine ⟨fun _ => ?_, fun h => by simp at h, fun h => by simp at h⟩
      rw [hzero a h1.1]
      exact hpos b h1.2
    · -- both zero: Equal
      refine ⟨fun h => by simp at h, fun _ => ?_, fun h => by simp at h⟩
      rw [hzero a h2.1, hzero b h2.2]
    · -- b.count = 0, a.count ≠ 0: Greater
      have ha0 : a.count ≠ 0 := by tauto
      refine ⟨fun h => by simp at h, fun h => by simp at h, fun _ => ?_⟩
      rw [hzero b h3]
      exact hpos a ha0
    · -- equal units: compare counts
      have h10 : (0 : ℚ) < (10 : ℚ) ^ a.unit := zpow_pos (by norm_num) _
      refine ⟨fun h => ?_, fun h => ?_, fun h => ?_⟩
      · have := Nat.compare_eq_lt.mp h
        rw [toRational, toRational, ← h4]
        exact (mul_lt_mul_left h10).mpr (Nat.cast_lt.mpr this)
      · have := Nat.compare_eq_eq.mp h
        rw [toRational, toRational, ← h4, this]
      · have := Nat.compare_eq_gt.mp h
        rw [toRational, toRational, ← h4]
        exact (mul_lt_mul_left h10).mpr (Nat.cast_lt.mpr this)
    · -- equal total digit counts: the lexicographic loop
      have ha0 : a.count ≠ 0 := by tauto
      have hb0 : b.count ≠ 0 := by tauto
      have hm1 : min a.unit b.unit ≤ a.unit := min_le_left _ _
      have hm2 : min a.unit b.unit ≤ b.unit := min_le_right _ _
      have hP : (((a.unit - min a.unit b.unit).toNat : ℕ) : ℤ) = a.unit - min a.unit b.unit :=
        Int.toNat_of_nonneg (by omega)
      have hQ : (((b.unit - min a.unit b.unit).toNat : ℕ) : ℤ) = b.unit - min a.unit b.unit :=
        Int.toNat_of_nonneg (by omega)
      have hlen : (rustDigits a.count).length + (a.unit - min a.unit b.unit).toNat
          = (rustDigits b.count).length + (b.unit - min a.unit b.unit).toNat := by
        omega
      have hlex := lexTail_correct (rustDigits a.count) (rustDigits b.count) _ _
        (rustDigits_lt_ten _) (rustDigits_lt_ten _) hlen
      rw [valMSB_rustDigits, valMSB_rustDigits] at hlex
      rw [hlex]
      have bridge := toRational_compare_bridge a b
      have hmc : min b.unit a.unit = min a.unit b.unit := min_comm _ _
      have bridge' := (toRational_compare_bridge b a).1
      rw [hmc] at bridge'
      exact ⟨fun h => bridge.1.mpr (Nat.compare_eq_lt.mp h),
        fun h => bridge.2.mpr (Nat.compare_eq_eq.mp h),
        fun h => bridge'.mpr (Nat.compare_eq_gt.mp h)⟩
    · -- different total digit counts
      have ha0 : a.count ≠ 0 := by tauto
      have hb0 : b.count ≠ 0 := by tauto
      have hm1 : min a.unit b.unit ≤ a.unit := min_le_left _ _
      have hm2 : min a.unit b.unit ≤ b.unit := min_le_right _ _
      have hP : (((a.unit - min a.unit b.unit).toNat : ℕ) : ℤ) = a.unit - min a.unit b.unit :=
        Int.toNat_of_nonneg (by omega)
      have hQ : (((b.unit - min a.unit b.unit).toNat : ℕ) : ℤ) = b.unit - min a.unit b.unit :=
        Int.toNat_of_nonneg (by omega)
      have hA : (rustDigits (a.count * 10 ^ (a.unit - min a.unit b.unit).toNat)).length
          = (rustDigits a.count).length + (a.unit - min a.unit b.unit).toNat :=
        rustDigits_length_mul_pow _ ha0 _
      have hB : (rustDigits (b.count * 10 ^ (b.unit - min a.unit b.unit).toNat)).length
          = (rustDigits b.count).length + (b.unit - min a.unit b.unit).toNat :=
        rustDigits_length_mul_pow _ hb0 _
      have bridge := toRational_compare_bridge a b
      have hmc : min b.unit a.unit = min a.unit b.unit := min_comm _ _
      have bridge' := (toRational_compare_bridge b a).1
      rw [hmc] at bridge'
      rcases lt_trichotomy (a.unit + ((rustDigits a.count).length : ℤ))
        (b.unit + ((rustDigits b.count).length : ℤ)) with hlt | heq | hgt
      · rw [show compare (a.unit + ((rustDigits a.count).length : ℤ))
            (b.unit + ((rustDigits b.count).length : ℤ)) = Ordering.lt
            from compare_lt_iff_lt.mpr hlt]
        refine ⟨fun _ => ?_, fun h => by simp at h, fun h => by simp at h⟩
        refine bridge.1.mpr (digitlen_lt _ _ (by positivity) ?_)
        rw [hA, hB]
        omega
      · exact absurd heq h5
      · rw [show compare (a.unit + ((rustDigits a.count).length : ℤ))
            (b.unit + ((rustDigits b.count).length : ℤ)) = Ordering.gt
            from compare_gt_iff_gt.mpr hgt]
        refine ⟨fun h => by simp at h, fun h => by simp at h, fun _ => ?_⟩
        refine bridge'.mpr (digitlen_lt _ _ (by positivity) ?_)
        rw [hA, hB]
        omega
  refine ⟨⟨sound.1, ?_⟩, ⟨sound.2.1, ?_⟩, ⟨sound.2.2, ?_⟩⟩ <;> intro h
  · cases hc : amountCmp a b
    · rfl
    · exact absurd (sound.2.1 hc) (by linarith)
    · exact absurd (sound.2.2 hc) (by linarith)
  · cases hc : amountCmp a b
    · exact absurd (sound.1 hc) (by linarith)
    · rfl
    · exact absurd (sound.2.2 hc) (by linarith)
  · cases hc : amountCmp a b
    · exact absurd (sound.1 hc) (by linarith)
    · exact absurd (sound.2.1 hc) (by linarith)
    · rfl

theorem thuAux_value : ∀ (f : Nat) (c : Nat) (u : Int),
    (10 : ℚ) ^ (thuAux f c u).2 * ((thuAux f c u).1 : ℚ) = (10 : ℚ) ^ u * (c : ℚ) := by
  intro f
  induction f with
  | zero => intro c u; rfl
  | succ f ihf =>
    intro c u
    simp only [thuAux]
    by_cases h : c % 10 = 0
    · rw [if_pos h, ihf]
      have hdiv : (c + 9) / 10 = c / 10 := by omega
      rw [hdiv]
      have hdc : c / 10 * 10 = c := Nat.div_mul_cancel (Nat.dvd_of_mod_eq_zero h)
      have hq : ((c / 10 : ℕ) : ℚ) * 10 = (c : ℚ) := by exact_mod_cast hdc
      rw [zpow_add_one₀ (by norm_num : (10 : ℚ) ≠ 0), mul_assoc,
        show (10 : ℚ) * ((c / 10 : ℕ) : ℚ) = (c : ℚ) from by rw [mul_comm]; exact hq]
    · rw [if_neg h]

theorem thuAux_fix (f : Nat) (c : Nat) (u : Int) (h : ¬c % 10 = 0) :
    thuAux f c u = (c, u) := by
  cases f with
  | zero => rfl
  | succ f => simp only [thuAux]; rw [if_neg h]

theorem thuAux_post : ∀ (f : Nat) (c : Nat) (u : Int),
    (thuAux f c u).1 % 10 ≠ 0 ∨ (thuAux f c u).2 = u + f := by
  intro f
  induction f with
  | zero => intro c u; right; simp [thuAux]
  | succ f ihf =>
    intro c u
    simp only [thuAux]
    by_cases h : c % 10 = 0
    · rw [if_pos h]
      rcases ihf ((c + 9) / 10) (u + 1) with h1 | h1
      · exact Or.inl h1
      · right; rw [h1]; push_cast; ring
    · rw [if_neg h]; exact Or.inl h

theorem thuAux_unit_range : ∀ (f : Nat) (c : Nat) (u : Int),
    u ≤ (thuAux f c u).2 ∧ (thuAux f c u).2 ≤ u + f := by
  intro f
  induction f with
  | zero => intro c u; simp [thuAux]
  | succ f ihf =>
    intro c u
    simp only [thuAux]
    by_cases h : c % 10 = 0
    · rw [if_pos h]
      have := ihf ((c + 9) / 10) (u + 1)
      omega
    · rw [if_neg h]; simp; omega

theorem thu_value (a : Amount) : toRational a.to_highest_unit = toRational a := by
  simp only [Amount.to_highest_unit, toRational]
  exact thuAux_value _ _ _

theorem thu_unit_lower (a : Amount) : a.unit ≤ a.to_highest_unit.unit :=
  (thuAux_unit_range _ _ _).1

theorem thu_unit_upper (a : Amount) (h : a.unit ≤ unitMax) :
    a.to_highest_unit.unit ≤ unitMax := by
  have := (thuAux_unit_range (unitMax - a.unit).toNat a.count a.unit).2
  simp only [Amount.to_highest_unit]
  omega

theorem thu_idempotent (a : Amount) :
    a.to_highest_unit.to_highest_unit = a.to_highest_unit := by
  rcases thuAux_post (unitMax - a.unit).toNat a.count a.unit with h | h
  · simp only [Amount.to_highest_unit]
    rw [thuAux_fix _ _ _ h]
  · have hF : (unitMax - (thuAux (unitMax - a.unit).toNat a.count a.unit).2).toNat = 0 := by
      omega
    show Amount.mk _ _ = _
    simp only [Amount.to_highest_unit, hF, thuAux]

theorem scaled_value (c : Nat) (dist : Nat) (base u : Int) (h : base + dist = u) :
    (((10 : ℤ) ^ dist * (c : ℤ) : ℤ) : ℚ) * (10 : ℚ) ^ base = (10 : ℚ) ^ u * (c : ℚ) := by
  push_cast
  rw [← zpow_natCast (10 : ℚ) dist]
  rw [show (10 : ℚ) ^ ((dist : ℕ) : ℤ) * (c : ℚ) * (10 : ℚ) ^ base
      = ((10 : ℚ) ^ base * (10 : ℚ) ^ ((dist : ℕ) : ℤ)) * (c : ℚ) from by ring]
  rw [← zpow_add₀ (by norm_num : (10 : ℚ) ≠ 0) base ((dist : ℕ) : ℤ), h]

/-- Output of `normalize`: both components share a unit, and each
denotes exactly the rational value of the corresponding input. -/
theorem normalize_spec (a b : Amount) :
    (Amount.normalize a b).1.unit = (Amount.normalize a b).2.unit ∧
    ((Amount.normalize a b).1.count : ℚ) * (10 : ℚ) ^ (Amount.normalize a b).1.unit
      = toRational a ∧
    ((Amount.normalize a b).2.count : ℚ) * (10 : ℚ) ^ (Amount.normalize a b).2.unit
      = toRational b := by
  have hva : toRational a.to_highest_unit = toRational a := thu_value a
  have hvb : toRational b.to_highest_unit = toRational b := thu_value b
  rw [toRational] at hva hvb
  simp only [Amount.normalize, Amount.toNormalized]
  by_cases h1 : a.to_highest_unit.unit = b.to_highest_unit.unit
  · rw [if_pos h1]
    refine ⟨h1, ?_, ?_⟩ <;> push_cast <;> rw [mul_comm]
    · exact hva
    · exact hvb
  · rw [if_neg h1]
    by_cases h2 : b.to_highest_unit.count = 0
    · rw [if_pos h2]
      refine ⟨rfl, ?_, ?_⟩
      · push_cast; rw [mul_comm]; exact hva
      · rw [← hvb, h2]; push_cast; ring
    · rw [if_neg h2]
      by_cases h3 : a.to_highest_unit.count = 0
      · rw [if_pos h3]
        refine ⟨rfl, ?_, ?_⟩
        · rw [← hva, h3]; push_cast; ring
        · push_cast; rw [mul_comm]; exact hvb
      · rw [if_neg h3]
        rcases lt_or_gt_of_ne (show a.to_highest_unit.unit ≠ b.to_highest_unit.unit from h1)
          with hlt | hgt
        · have hmin : min a.to_highest_unit.unit b.to_highest_unit.unit
              = a.to_highest_unit.unit := min_eq_left hlt.le
          rw [hmin, if_pos rfl,
            if_neg (show ¬b.to_highest_unit.unit = a.to_highest_unit.unit by omega),
            if_pos hlt]
          dsimp only
          refine ⟨rfl, ?_, ?_⟩
          · push_cast; rw [mul_comm]; exact hva
          · exact (scaled_value b.to_highest_unit.count _ _ b.to_highest_unit.unit
              (by omega)).trans hvb
        · have hmin : min a.to_highest_unit.unit b.to_highest_unit.unit
              = b.to_highest_unit.unit := min_eq_right hgt.le
          rw [hmin, if_neg (show ¬a.to_highest_unit.unit = b.to_highest_unit.unit from h1),
            if_pos rfl, if_neg (show ¬a.to_highest_unit.unit < b.to_highest_unit.unit by omega)]
          dsimp only
          refine ⟨rfl, ?_, ?_⟩
          · exact (scaled_value a.to_highest_unit.count _ _ a.to_highest_unit.unit
              (by omega)).trans hva
          · push_cast; rw [mul_comm]; exact hvb

theorem normalize_fst_unit_cases (a b : Amount) :
    (Amount.normalize a b).1.unit = a.to_highest_unit.unit ∨
    (Amount.normalize a b).1.unit = b.to_highest_unit.unit := by
  simp only [Amount.normalize, Amount.toNormalized]
  split_ifs <;> dsimp only <;>
    first
    | (left; rfl)
    | (right; rfl)
    | exact min_choice _ _

theorem normalize_snd_unit_cases (a b : Amount) :
    (Amount.normalize a b).2.unit = a.to_highest_unit.unit ∨
    (Amount.normalize a b).2.unit = b.to_highest_unit.unit := by
  simp only [Amount.normalize, Amount.toNormalized]
  split_ifs <;> dsimp only <;>
    first
    | (left; rfl)
    | (right; rfl)
    | exact min_choice _ _

theorem normalize_unit_bounds (a b : Amount) (ha : Inv a) (hb : Inv b) :
    unitMin ≤ (Amount.normalize a b).1.unit ∧ (Amount.normalize a b).1.unit ≤ unitMax := by
  have hxl := thu_unit_lower a
  have hxu := thu_unit_upper a ha.2.2
  have hyl := thu_unit_lower b
  have hyu := thu_unit_upper b hb.2.2
  have ha1 := ha.2.1
  have hb1 := hb.2.1
  rcases normalize_fst_unit_cases a b with h | h <;> rw [h] <;>
    unfold unitMin unitMax at * <;> omega

theorem addLoop_unit_ge : ∀ (f : Nat) (c : Int) (u : Int), u ≤ (addLoop f c u).2 := by
  intro f
  induction f with
  | zero => intro c u; simp [addLoop]
  | succ f ihf =>
    intro c u
    simp only [addLoop]
    split_ifs with h
    · have := ihf (divCeilInt c 10) (u + 1)
      omega
    · simp

/-- C1: the claim states that a successful `checked_add` conserves the
rational value exactly.  The code violates this: `div_ceil` rounds the
count up whenever the normalized sum exceeds `counter_max` and is not
divisible by 10.  At the failing input
`Amount{999999999,0} + Amount{2,0}` the code returns
`Ok(Amount{100000001,1})`, whose value `1000000010` differs from the
exact sum `1000000001`. -/
theorem C1_checked_add_creates_value :
    Amount.checked_add ⟨999999999, 0⟩ ⟨2, 0⟩ = .ok ⟨100000001, 1⟩ ∧
    toRational ⟨100000001, 1⟩ ≠ toRational ⟨999999999, 0⟩ + toRational ⟨2, 0⟩ := by
  refine ⟨rfl, ?_⟩
  simp only [toRational]
  norm_num

/-- C2: the claim (and the struct's own doc comment) says adding
`Amount{1,3}` to `Amount{1,-20}` errors with `AmountIncompatible`; the
code instead rounds repeatedly with `div_ceil` and returns
`Ok(Amount{100000001,-5})`. -/
theorem C2_add_far_apart_returns_ok :
    Amount.checked_add ⟨1, 3⟩ ⟨1, -20⟩ = .ok ⟨100000001, -5⟩ ∧
    Amount.checked_add ⟨1, 3⟩ ⟨1, -20⟩ ≠ .error .AmountIncompatible :=
  ⟨rfl, fun h => Except.noConfusion h⟩

/-- C4: `Amount::cmp` returns exactly the ordering of the operands'
rational values; in particular, distinct `(count, unit)` encodings of
the same value compare `Equal`. -/
theorem C4_cmp_agrees_with_rational_order (a b : Amount) (ha : Inv a) (hb : Inv b) :
    (amountCmp a b = .lt ↔ toRational a < toRational b) ∧
    (amountCmp a b = .eq ↔ toRational a = toRational b) ∧
    (amountCmp a b = .gt ↔ toRational b < toRational a) :=
  amountCmp_correct a b

theorem C4_witness :
    Inv ⟨10, 0⟩ ∧ Inv ⟨1, 1⟩ ∧ amountCmp ⟨10, 0⟩ ⟨1, 1⟩ = .eq :=
  ⟨by decide, by decide,
    (C4_cmp_agrees_with_rational_order ⟨10, 0⟩ ⟨1, 1⟩ (by decide) (by decide)).2.1.mpr
      (by simp [toRational])⟩

/-- C5 counterexample: the claim includes that an `Ok` result of
`checked_sub` is canonicalized (count not divisible by 10, or zero).
`Amount{25,0} - Amount{5,0}` returns `Ok(Amount{20,0})`, whose count 20
is divisible by 10 and nonzero: `checked_sub` has no canonicalization
loop. -/
theorem C5_counterexample :
    Inv ⟨25, 0⟩ ∧ Inv ⟨5, 0⟩ ∧
    Amount.checked_sub ⟨25, 0⟩ ⟨5, 0⟩ = .ok ⟨20, 0⟩ ∧
    ¬((20 : Nat) % 10 ≠ 0 ∨ (20 : Nat) = 0) :=
  ⟨by decide, by decide, rfl, by decide⟩

/-- C5 (amended): `checked_sub` returns `AmountUnderflow` iff the first
operand is semantically smaller, and any `Ok` result denotes exactly the
difference of the rational values; the result is however not
canonicalized. -/
theorem C5_amended_sub_exact (a b : Amount) (ha : Inv a) (hb : Inv b) :
    (Amount.checked_sub a b = .error .AmountUnderflow ↔ toRational a < toRational b) ∧
    (∀ d, Amount.checked_sub a b = .ok d → toRational d = toRational a - toRational b) := by
  have hcmp := (amountCmp_correct a b).1
  have ns := normalize_spec a b
  constructor
  · constructor
    · intro h
      by_cases hlt : amountCmp a b = .lt
      · exact hcmp.mp hlt
      · exfalso
        simp only [Amount.checked_sub, if_neg hlt] at h
        split_ifs at h with hc
        exact Error.noConfusion (Except.error.inj h)
    · intro h
      simp only [Amount.checked_sub, if_pos (hcmp.mpr h)]
  · intro d h
    by_cases hlt : amountCmp a b = .lt
    · simp only [Amount.checked_sub, if_pos hlt] at h
      exact Except.noConfusion h
    · simp only [Amount.checked_sub, if_neg hlt] at h
      split_ifs at h with hc
      · have hd := Except.ok.inj h
        subst hd
        have h0 : (0 : ℤ) ≤ (Amount.normalize a b).1.count - (Amount.normalize a b).2.count :=
          hc.1
        have hcast : (((((Amount.normalize a b).1.count
            - (Amount.normalize a b).2.count).toNat : ℕ)) : ℚ)
            = (((Amount.normalize a b).1.count - (Amount.normalize a b).2.count : ℤ) : ℚ) := by
          have := Int.toNat_of_nonneg h0
          exact_mod_cast congrArg (fun z : ℤ => (z : ℚ)) this
        show (10 : ℚ) ^ (Amount.normalize a b).1.unit * _ = _
        rw [hcast]
        calc (10 : ℚ) ^ (Amount.normalize a b).1.unit
              * (((Amount.normalize a b).1.count - (Amount.normalize a b).2.count : ℤ) : ℚ)
            = ((Amount.normalize a b).1.count : ℚ) * (10 : ℚ) ^ (Amount.normalize a b).1.unit
              - ((Amount.normalize a b).2.count : ℚ)
                * (10 : ℚ) ^ (Amount.normalize a b).2.unit := by
              rw [← ns.1]; push_cast; ring
        _ = toRational a - toRational b := by rw [ns.2.1, ns.2.2]

theorem C5_witness :
    toRational ⟨20, 0⟩ = toRational ⟨25, 0⟩ - toRational ⟨5, 0⟩ :=
  (C5_amended_sub_exact ⟨25, 0⟩ ⟨5, 0⟩ (by decide) (by decide)).2 ⟨20, 0⟩ rfl

/-- C6: `to_highest_unit` preserves the rational value and is
idempotent (field-for-field). -/
theorem C6_to_highest_unit_value_and_idempotent (a : Amount) (ha : Inv a) :
    toRational a.to_highest_unit = toRational a ∧
    a.to_highest_unit.to_highest_unit = a.to_highest_unit :=
  ⟨thu_value a, thu_idempotent a⟩

theorem C6_witness :
    Inv ⟨2500, 2⟩ ∧
    (toRational (Amount.to_highest_unit ⟨2500, 2⟩) = toRational ⟨2500, 2⟩ ∧
      Amount.to_highest_unit (Amount.to_highest_unit ⟨2500, 2⟩)
        = Amount.to_highest_unit ⟨2500, 2⟩) :=
  ⟨by decide, C6_to_highest_unit_value_and_idempotent ⟨2500, 2⟩ (by decide)⟩

/-- C8 counterexample: the claim asserts `Ok` results of `checked_add`
satisfy the unit bound `unit ≤ unit_max = 118`.  Adding the maximal
amount to itself yields `Ok(Amount{2,127})` with unit `127 > 118`. -/
theorem C8_counterexample :
    Inv ⟨1000000000, 118⟩ ∧
    Amount.checked_add ⟨1000000000, 118⟩ ⟨1000000000, 118⟩ = .ok ⟨2, 127⟩ ∧
    ¬Inv ⟨2, 127⟩ :=
  ⟨by decide, rfl, by decide⟩

/-- C8 (amended): for operands satisfying the invariants, `Ok` results
of `checked_add` satisfy the count bound and the lower unit bound (the
upper unit bound can be exceeded, up to 127), and `Ok` results of
`checked_sub` satisfy the count bound and both unit bounds. -/
theorem C8_amended_bounds (a b : Amount) (ha : Inv a) (hb : Inv b) :
    (∀ s, Amount.checked_add a b = .ok s → s.count ≤ counterMax ∧ unitMin ≤ s.unit) ∧
    (∀ d, Amount.checked_sub a b = .ok d →
      d.count ≤ counterMax ∧ unitMin ≤ d.unit ∧ d.unit ≤ unitMax) := by
  have hnb := normalize_unit_bounds a b ha hb
  have hg := addLoop_unit_ge
    ((Amount.normalize a b).1.count + (Amount.normalize a b).2.count).toNat
    ((Amount.normalize a b).1.count + (Amount.normalize a b).2.count)
    (Amount.normalize a b).1.unit
  constructor
  · intro s h
    simp only [Amount.checked_add] at h
    split_ifs at h with h0 hc1 hc2
    · have hs := Except.ok.inj h
      subst hs
      dsimp only
      refine ⟨by omega, ?_⟩
      have := hnb.1
      omega
    · have hs := Except.ok.inj h
      subst hs
      dsimp only
      refine ⟨by omega, hnb.1⟩
  · intro d h
    simp only [Amount.checked_sub] at h
    split_ifs at h with h1 hc
    have hd := Except.ok.inj h
    subst hd
    dsimp only
    exact ⟨by omega, hnb.1, hnb.2⟩

theorem C8_witness :
    Inv ⟨3, 0⟩ ∧ Inv ⟨7, 0⟩ ∧
    (∀ s, Amount.checked_add ⟨3, 0⟩ ⟨7, 0⟩ = .ok s → s.count ≤ counterMax ∧ unitMin ≤ s.unit) :=
  ⟨by decide, by decide,
    (C8_amended_bounds ⟨3, 0⟩ ⟨7, 0⟩ (by decide) (by decide)).1⟩

/-- C7 counterexample: the claim predicts that for unit `-5` the
nearest prefix at or below is selected (micro, `10^-6`), giving
"10 micro"; the code walks toward zero for negative units and emits
"100 milli". -/
theorem C7_counterexample :
    Amount.to_si_string ⟨1, -5⟩ = "100 milli" ∧
    Amount.to_si_string ⟨1, -5⟩ ≠ "10 micro" :=
  ⟨rfl, by decide⟩

/-- C7 (amended): for `0 ≤ unit ≤ 24` the code selects the nearest SI
key at or below the unit and multiplies the count by
`10^(unit - key)`; for `-24 ≤ unit < 0` it selects the nearest SI key
at or above the unit (toward zero) and multiplies the count by
`10^(key - unit)`; outside `[-24, 24]` it emits the `count*10^unit`
fallback. -/
theorem C7_amended_si_string (a : Amount) (ha : Inv a) :
    Amount.to_si_string a = siAmended a := by
  obtain ⟨c, u⟩ := a
  by_cases h : -24 ≤ u ∧ u ≤ 24
  · obtain ⟨h1, h2⟩ := h
    interval_cases u <;> rfl
  · simp only [Amount.to_si_string, siAmended, if_neg h]

theorem C7_witness :
    Inv ⟨1, -5⟩ ∧ Amount.to_si_string ⟨1, -5⟩ = siAmended ⟨1, -5⟩ :=
  ⟨by decide, C7_amended_si_string ⟨1, -5⟩ (by decide)⟩

/-- C3 counterexample: the claim says `build` fails when the set of
accumulated inputs is empty (and fails with `AmountMismatch` on sum
mismatch); the code performs no such checks and returns `Ok` on the
empty builder. -/
theorem C3_counterexample :
    TransactionBuilder.build natOps ⟨[], []⟩ = .ok (⟨[], []⟩, []) := rfl

/-- C3 (amended): `TransactionBuilder::build` performs no validation at
all — it returns `Ok` for every accumulated set of inputs and outputs,
including empty inputs and mismatched amount sums. -/
theorem C3_amended_build_always_ok {Owner Denom PK Sig Env : Type}
    [DecidableEq Owner] [DecidableEq Denom]
    (ops : MintOps Owner Denom Env PKSet PK Sig SigShare Fr Name DbcTx)
    (tb : TransactionBuilder Owner Denom PK Sig Env) :
    ∃ v, TransactionBuilder.build ops tb = .ok v :=
  ⟨_, rfl⟩

theorem dedup_singleton {α : Type} [DecidableEq α] (l : List α) (x : α)
    (h : l.dedup = [x]) : ∀ y ∈ l, y = x := by
  intro y hy
  have hm := List.mem_dedup.mpr hy
  rw [h] at hm
  simpa using hm

theorem buildOutputDbcs_spec {Owner Denom Env PKSet PK Sig SigShare Fr Name DbcTx : Type}
    [DecidableEq Env]
    (ops : MintOps Owner Denom Env PKSet PK Sig SigShare Fr Name DbcTx)
    (mintPks : PKSet) (shares : List (ReissueShare Env Fr SigShare PKSet DbcTx)) :
    ∀ (l : List (DbcEnvelope Env Denom × DbcContent Owner Denom))
      (ds : List (Dbc Owner Denom PK Sig)),
      buildOutputDbcs ops mintPks shares l = some (.ok ds) →
      ∀ d ∈ ds, ∃ de, (de, d.content) ∈ l ∧
        d.mint_public_key = ops.publicKey (ops.deriveChild mintPks
          (ops.toBeBytes (ops.amountOf de.denomination))) ∧
        ops.combineSignatures (ops.deriveChild mintPks
          (ops.toBeBytes (ops.amountOf de.denomination)))
          ((sharesForEnvelope shares de.envelope).map fun ses => ses.share)
          = .ok d.mint_signature := by
  intro l
  induction l with
  | nil =>
    intro ds h d hd
    simp only [buildOutputDbcs] at h
    have hds : ([] : List (Dbc Owner Denom PK Sig)) = ds := Except.ok.inj (Option.some.inj h)
    subst hds
    simp at hd
  | cons p rest ih =>
    obtain ⟨de, content⟩ := p
    intro ds h d hd
    simp only [buildOutputDbcs] at h
    cases hs : sharesForEnvelope shares de.envelope with
    | nil => rw [hs] at h; exact Option.noConfusion h
    | cons s ss =>
      rw [hs] at h
      cases hcomb : ops.combineSignatures
          (ops.deriveChild mintPks (ops.toBeBytes (ops.amountOf de.denomination)))
          ((s :: ss).map fun ses => ses.share) with
      | error e =>
        simp only [hcomb] at h
        exact Except.noConfusion (Option.some.inj h)
      | ok sig =>
        simp only [hcomb] at h
        cases hrec : @buildOutputDbcs Owner Denom Env PKSet PK Sig SigShare Fr Name DbcTx _ ops mintPks shares rest with
        | none =>
          simp only [hrec] at h
          exact Option.noConfusion h
        | some r =>
          simp only [hrec] at h
          cases r with
          | error e => exact Except.noConfusion (Option.some.inj h)
          | ok tail =>
            have hds : Dbc.mk content
                (ops.publicKey (ops.deriveChild mintPks
                  (ops.toBeBytes (ops.amountOf de.denomination)))) sig :: tail = ds :=
              Except.ok.inj (Option.some.inj h)
            subst hds
            rcases List.mem_cons.mp hd with rfl | hd'
            · refine ⟨de, List.mem_cons_self _ _, rfl, ?_⟩
              rw [hs]
              exact hcomb
            · obtain ⟨de', hmem, hpk, hcs⟩ := ih tail hrec d hd'
              exact ⟨de', List.mem_cons_of_mem _ hmem, hpk, hcs⟩

/-- C9: every Dbc returned by a successful `DbcBuilder::build` carries
the mint public key derived from the shared master key set at the
big-endian bytes of its denomination's amount, its mint signature is
the combination of the accumulated nodes' signature shares for its
envelope, and the returned list is sorted by Dbc name.  (The
denomination the code derives from is that of the `DbcEnvelope` key of
`outputs_content`; the hypothesis `hcons` records that the
envelope-to-content map pairs matching denominations, as the map built
by `TransactionBuilder::build` always does.) -/
theorem C9_dbc_builder_outputs {Owner Denom Env PKSet PK Sig SigShare Fr Name DbcTx : Type}
    [DecidableEq Env] [DecidableEq PKSet] [DecidableEq DbcTx] [LinearOrder Name]
    (ops : MintOps Owner Denom Env PKSet PK Sig SigShare Fr Name DbcTx)
    (b : DbcBuilder Owner Denom Env PKSet PK Sig SigShare Fr DbcTx)
    (dbcs : List (Dbc Owner Denom PK Sig))
    (hcons : ∀ p ∈ b.outputs_content, (Prod.fst p).denomination = (Prod.snd p).denomination)
    (h : DbcBuilder.build ops b = some (.ok dbcs)) :
    ∃ master, (∀ rs ∈ b.reissue_shares, rs.public_key_set = master) ∧
      (∀ d ∈ dbcs,
        d.mint_public_key = ops.publicKey (ops.deriveChild master
          (ops.toBeBytes (ops.amountOf d.content.denomination))) ∧
        ∃ de, (de, d.content) ∈ b.outputs_content ∧
          ops.combineSignatures (ops.deriveChild master
            (ops.toBeBytes (ops.amountOf de.denomination)))
            ((sharesForEnvelope b.reissue_shares de.envelope).map fun ses => ses.share)
            = .ok d.mint_signature) ∧
      List.Sorted (fun x y => ops.contentName x.content ≤ ops.contentName y.content) dbcs := by
  simp only [DbcBuilder.build] at h
  by_cases hemp : b.reissue_shares.isEmpty = true
  · rw [if_pos hemp] at h
    exact absurd (Option.some.inj h) (fun hh => Except.noConfusion hh)
  · rw [if_neg hemp] at h
    cases hrt : b.reissue_transaction with
    | none =>
      rw [hrt] at h
      exact absurd (Option.some.inj h) (fun hh => Except.noConfusion hh)
    | some rt =>
      rw [hrt] at h
      cases hval : validateShares ops rt b.reissue_shares with
      | error e =>
        simp only [hval] at h
        exact absurd (Option.some.inj h) (fun hh => Except.noConfusion hh)
      | ok u =>
        simp only [hval] at h
        cases hdp : (b.reissue_shares.map fun rs => rs.public_key_set).dedup with
        | nil =>
          simp only [hdp] at h
          exact absurd (Option.some.inj h) (fun hh => Except.noConfusion hh)
        | cons pks rest =>
          cases rest with
          | cons q qs =>
            simp only [hdp] at h
            exact absurd (Option.some.inj h) (fun hh => Except.noConfusion hh)
          | nil =>
            simp only [hdp] at h
            cases hb : @buildOutputDbcs Owner Denom Env PKSet PK Sig SigShare Fr Name DbcTx _ ops pks b.reissue_shares b.outputs_content with
            | none =>
              simp only [hb] at h
              exact Option.noConfusion h
            | some r =>
              simp only [hb] at h
              cases r with
              | error e =>
                exact absurd (Option.some.inj h) (fun hh => Except.noConfusion hh)
              | ok dbcs0 =>
                have hsort : List.insertionSort
                    (fun x y => ops.contentName x.content ≤ ops.contentName y.content) dbcs0
                    = dbcs := Except.ok.inj (Option.some.inj h)
                refine ⟨pks, ?_, ?_, ?_⟩
                · intro rs hrs
                  exact dedup_singleton _ _ hdp _ (List.mem_map.mpr ⟨rs, hrs, rfl⟩)
                · intro d hd
                  have hd0 : d ∈ dbcs0 := by
                    rw [← hsort] at hd
                    exact (List.perm_insertionSort _ _).mem_iff.mp hd
                  obtain ⟨de, hmem, hpk, hcs⟩ :=
                    buildOutputDbcs_spec ops pks b.reissue_shares b.outputs_content dbcs0
                      hb d hd0
                  have hde : de.denomination = d.content.denomination := hcons (de, d.content) hmem
                  refine ⟨?_, de, hmem, hcs⟩
                  rw [hpk, hde]
                · rw [← hsort]
                  haveI ht : IsTotal (Dbc Owner Denom PK Sig)
                      (fun x y => ops.contentName x.content ≤ ops.contentName y.content) :=
                    ⟨fun x y => le_total _ _⟩
                  haveI htr : IsTrans (Dbc Owner Denom PK Sig)
                      (fun x y => ops.contentName x.content ≤ ops.contentName y.content) :=
                    ⟨fun x y z hxy hyz => le_trans hxy hyz⟩
                  exact List.sorted_insertionSort _ dbcs0

theorem C9_witness :
    ∃ master, (∀ rs ∈ goodBuilder.reissue_shares, rs.public_key_set = master) ∧
      (∀ d ∈ [goodDbc],
        d.mint_public_key = natOps.publicKey (natOps.deriveChild master
          (natOps.toBeBytes (natOps.amountOf d.content.denomination))) ∧
        ∃ de, (de, d.content) ∈ goodBuilder.outputs_content ∧
          natOps.combineSignatures (natOps.deriveChild master
            (natOps.toBeBytes (natOps.amountOf de.denomination)))
            ((sharesForEnvelope goodBuilder.reissue_shares de.envelope).map fun ses => ses.share)
            = .ok d.mint_signature) ∧
      List.Sorted (fun x y => natOps.contentName x.content ≤ natOps.contentName y.content)
        [goodDbc] :=
  C9_dbc_builder_outputs natOps goodBuilder [goodDbc] (by decide) rfl

theorem buildOutputDbcs_covered {Owner Denom Env PKSet PK Sig SigShare Fr Name DbcTx : Type}
    [DecidableEq Env]
    (ops : MintOps Owner Denom Env PKSet PK Sig SigShare Fr Name DbcTx)
    (mintPks : PKSet) (shares : List (ReissueShare Env Fr SigShare PKSet DbcTx)) :
    ∀ l : List (DbcEnvelope Env Denom × DbcContent Owner Denom),
      (∀ p ∈ l, ∃ rs ∈ shares, ∃ ses ∈ rs.signed_envelope_shares,
        ses.envelope = (Prod.fst p).envelope) →
      @buildOutputDbcs Owner Denom Env PKSet PK Sig SigShare Fr Name DbcTx _ ops mintPks shares l ≠ none := by
  intro l
  induction l with
  | nil => intro _ h; simp [buildOutputDbcs] at h
  | cons p rest ih =>
    obtain ⟨de, content⟩ := p
    intro hcov h
    obtain ⟨rs, hrs, ses, hses, henv⟩ := hcov (de, content) (by simp)
    have hmem : ses ∈ sharesForEnvelope shares de.envelope := by
      unfold sharesForEnvelope
      refine List.mem_filter.mpr ⟨?_, by simp [henv]⟩
      exact List.mem_join.mpr ⟨rs.signed_envelope_shares, List.mem_map.mpr ⟨rs, hrs, rfl⟩, hses⟩
    simp only [buildOutputDbcs] at h
    cases hs : sharesForEnvelope shares de.envelope with
    | nil => rw [hs] at hmem; simp at hmem
    | cons s ss =>
      rw [hs] at h
      cases hcomb : ops.combineSignatures
          (ops.deriveChild mintPks (ops.toBeBytes (ops.amountOf de.denomination)))
          ((s :: ss).map fun ses => ses.share) with
      | error e =>
        simp only [hcomb] at h
        exact Option.noConfusion h
      | ok sig =>
        simp only [hcomb] at h
        cases hrec : @buildOutputDbcs Owner Denom Env PKSet PK Sig SigShare Fr Name DbcTx _ ops mintPks shares rest with
        | none => exact ih (fun q hq => hcov q (List.mem_cons_of_mem _ hq)) hrec
        | some r =>
          simp only [hrec] at h
          cases r <;> exact Option.noConfusion h

/-- C10: `DbcBuilder::build` is not total over its error type — with a
share and a transaction set but an `outputs_content` envelope covered
by no accumulated share, it panics on the `unwrap` (modelled as
`none`); conversely, when every envelope key of `outputs_content`
appears in some accumulated share, the `unwrap` cannot fail. -/
theorem C10_build_unwrap_partiality :
    (DbcBuilder.build natOps ⟨some ⟨[], []⟩, [⟨0, [], 5⟩], [(⟨1, 7⟩, ⟨3, 7⟩)]⟩ = none) ∧
    (∀ {Owner Denom Env PKSet PK Sig SigShare Fr Name DbcTx : Type}
      [DecidableEq Env] [DecidableEq PKSet] [DecidableEq DbcTx] [LinearOrder Name]
      (ops : MintOps Owner Denom Env PKSet PK Sig SigShare Fr Name DbcTx)
      (b : DbcBuilder Owner Denom Env PKSet PK Sig SigShare Fr DbcTx),
      (∀ p ∈ b.outputs_content, ∃ rs ∈ b.reissue_shares,
        ∃ ses ∈ rs.signed_envelope_shares, ses.envelope = (Prod.fst p).envelope) →
      DbcBuilder.build ops b ≠ none) := by
  constructor
  · rfl
  · intro Owner Denom Env PKSet PK Sig SigShare Fr Name DbcTx
    intro _ _ _ _ ops b hcov h
    simp only [DbcBuilder.build] at h
    by_cases hemp : b.reissue_shares.isEmpty = true
    · rw [if_pos hemp] at h; exact Option.noConfusion h
    · rw [if_neg hemp] at h
      cases hrt : b.reissue_transaction with
      | none =>
        rw [hrt] at h
        exact Option.noConfusion h
      | some rt =>
        rw [hrt] at h
        cases hval : validateShares ops rt b.reissue_shares with
        | error e =>
          simp only [hval] at h
          exact Option.noConfusion h
        | ok u =>
          simp only [hval] at h
          cases hdp : (b.reissue_shares.map fun rs => rs.public_key_set).dedup with
          | nil =>
            simp only [hdp] at h
            exact Option.noConfusion h
          | cons pks rest =>
            cases rest with
            | cons q qs =>
              simp only [hdp] at h
              exact Option.noConfusion h
            | nil =>
              simp only [hdp] at h
              cases hb : @buildOutputDbcs Owner Denom Env PKSet PK Sig SigShare Fr Name DbcTx _ ops pks b.reissue_shares b.outputs_content with
              | none =>
                exact buildOutputDbcs_covered ops pks b.reissue_shares b.outputs_content hcov hb
              | some r =>
                simp only [hb] at h
                cases r <;> exact Option.noConfusion h

theorem C10_witness :
    DbcBuilder.build natOps goodBuilder ≠ none :=
  C10_build_unwrap_partiality.2 natOps goodBuilder (by decide)

end SnDbc
